import Mathlib

/-!
Verification of the album-tree finalizer (`src/model/album.js`).

The JavaScript source is shallowly embedded below: plain objects become
structures, the mutable `Album` prototype becomes a pure `Album → FAlbum`
transformation (`Album.finalize`), lodash helpers (`_.compact`, `_.min`,
`_.orderBy`, `_.partition`) are modelled by small executable functions,
and JavaScript truthiness (`x || d`) is made explicit.
-/

set_option linter.unusedVariables false

/-- A media file record as consumed by album.js: `type`, `filename`,
`meta.date` (possibly `undefined`, a `Date` modelled as `Nat`), and
`urls.thumbnail`. -/
structure MediaFile where
  type : String
  filename : String
  date : Option Nat
  thumbnail : String
deriving DecidableEq, Repr

/-- An entry of the `previews` array: either a reference to a real media
file, or the shared `PREVIEW_MISSING` sentinel object (line 28).  The JS
code distinguishes the sentinel by reference identity (`!==`), which the
dedicated constructor models exactly. -/
inductive Preview where
  | real : MediaFile → Preview
  | missing : Preview
deriving DecidableEq, Repr

/-- The `stats` object computed by `calculateStats` (lines 93-100). -/
structure Stats where
  albums : Nat
  photos : Nat
  videos : Nat
  fromDate : Option Nat
  toDate : Option Nat
  total : Nat
deriving DecidableEq, Repr

/-- The recognized fields of the `options` argument of `finalize`.
Optional string fields are `none` when absent (`undefined`). -/
structure Options where
  albumsOutputFolder : Option String
  index : Option String
  titleizeAlbumNames : Bool
  sortMediaBy : Option String
  sortMediaDirection : Option String
  sortAlbumsBy : Option String
  sortAlbumsDirection : Option String
  sortAlmbumsNumbersFirst : Bool
deriving DecidableEq, Repr

/-- JavaScript `x || d` for an optional string: both `undefined` and the
empty string are falsy and fall back to the default. -/
def jsOrString : Option String → String → String
  | none, d => d
  | some s, d => if s = "" then d else s

/-- `PREVIEW_COUNT` (line 15). -/
def PREVIEW_COUNT : Nat := 10

def isLowerAZ (c : Char) : Bool := 'a' ≤ c && c ≤ 'z'

def isUpperAZ (c : Char) : Bool := 'A' ≤ c && c ≤ 'Z'

def isDigit09 (c : Char) : Bool := '0' ≤ c && c ≤ '9'

/-- A character kept by `sanitise`'s regex `[^a-z0-9-_]/ig` (line 137):
ASCII letters (either case, because of the `i` flag), digits, `-`, `_`. -/
def isKeptChar (c : Char) : Bool :=
  isLowerAZ c || isUpperAZ c || isDigit09 c || c == '-' || c == '_'

/-- `sanitise` (lines 136-138): drop every character outside
`[A-Za-z0-9-_]`. -/
def sanitise (s : String) : String :=
  String.mk (s.data.filter isKeptChar)

/-- A word character for the regex class `\w` / complement `\W`. -/
def isWordChar (c : Char) : Bool :=
  isLowerAZ c || isUpperAZ c || isDigit09 c || c == '_'

/-- First `titleize` pass (line 142): the global replace
`([A-Z\d]+)([A-Z][a-z])` with `$1 $2`, equivalent to inserting a space
before each uppercase letter that is preceded by `[A-Z0-9]` and followed
by a lowercase letter. -/
def titleizePassOne : List Char → List Char
  | a :: b :: c :: rest =>
    if (isUpperAZ a || isDigit09 a) && isUpperAZ b && isLowerAZ c then
      a :: ' ' :: titleizePassOne (b :: c :: rest)
    else a :: titleizePassOne (b :: c :: rest)
  | l => l

/-- Second `titleize` pass (line 143): the global replace
`([a-z\d])([A-Z])` with `$1 $2`. -/
def titleizePassTwo : List Char → List Char
  | a :: b :: rest =>
    if (isLowerAZ a || isDigit09 a) && isUpperAZ b then
      a :: ' ' :: titleizePassTwo (b :: rest)
    else a :: titleizePassTwo (b :: rest)
  | l => l

/-- The replace `^\W*[a-z]` with its uppercased match (lines 146-148 and
153-155): skip leading non-word characters and capitalize the first
character if it is a lowercase ASCII letter. -/
def capitaliseFirst : List Char → List Char
  | [] => []
  | c :: rest =>
    if !isWordChar c then c :: capitaliseFirst rest
    else if isLowerAZ c then c.toUpper :: rest
    else c :: rest

/-- `String.prototype.trim` on a character list. -/
def trimWs (l : List Char) : List Char :=
  ((l.dropWhile Char.isWhitespace).reverse.dropWhile Char.isWhitespace).reverse

/-- Split at every single whitespace character; used below with empty
chunks removed, which on an already-trimmed string agrees with
JavaScript `split(/\s+/)`. -/
def splitEachWs : List Char → List (List Char)
  | [] => [[]]
  | c :: rest =>
    if c.isWhitespace then [] :: splitEachWs rest
    else
      match splitEachWs rest with
      | [] => [[c]]
      | w :: ws => (c :: w) :: ws

/-- `titleize` (lines 140-159), applied to ASCII text: camelCase splits,
underscores to spaces, lowercase, capitalize each whitespace-separated
word, join with single spaces. -/
def titleize (s : String) : String :=
  let l1 := titleizePassOne s.data
  let l2 := titleizePassTwo l1
  let l3 := l2.map (fun c => if c = '_' then ' ' else c)
  let l4 := l3.map Char.toLower
  let l5 := capitaliseFirst l4
  let l6 := trimWs l5
  let words := (splitEachWs l6).filter (fun w => !w.isEmpty)
  String.mk (List.intercalate [' '] (words.map capitaliseFirst))

/-- Models Node's `path.join(folder, name)` for the shapes used at line
64: a folder (default `.`) joined with a relative file name. -/
def pathJoin (folder name : String) : String :=
  if folder = "." ∨ folder = "" then name else folder ++ "/" ++ name

/-- Models Node's `url.resolve(folder + '/', name)` for the shapes used
at line 65: a relative base resolved against a plain file name. -/
def urlResolve (folder name : String) : String :=
  if folder = "." ∨ folder = "" then name else folder ++ "/" ++ name

/-- `_.compact` on a list of numbers: removes falsy entries, i.e. `0`.
Used inside the photo/video sums (lines 95-96), where dropping zeros
does not change the sum. -/
def compactNat (l : List Nat) : List Nat := l.filter (fun n => n != 0)

/-- `_.compact` on a list of possibly-undefined dates (lines 97-98):
removes `undefined`; a `Date` object is always truthy. -/
def compactDates (l : List (Option Nat)) : List Nat := l.filterMap id

/-- `_.min`: minimum of a list, `undefined` on the empty list. -/
def lodashMin : List Nat → Option Nat
  | [] => none
  | x :: xs =>
    match lodashMin xs with
    | none => some x
    | some m => some (Nat.min x m)

/-- `_.max`: maximum of a list, `undefined` on the empty list. -/
def lodashMax : List Nat → Option Nat
  | [] => none
  | x :: xs =>
    match lodashMax xs with
    | none => some x
    | some m => some (Nat.max x m)

/-- A sort key produced by the `SORT_ALBUMS_BY` / `SORT_MEDIA_BY`
iteratees: a string (title, filename), a possibly-undefined date, or the
object itself when the configured key is unrecognized and lodash falls
back to the identity iteratee (two plain objects compare as equal). -/
inductive SortVal where
  | str : String → SortVal
  | dat : Option Nat → SortVal
  | obj : SortVal
deriving DecidableEq, Repr

/-- lodash `compareAscending` restricted to the values occurring here:
strings compare lexicographically by code unit, dates numerically, a
defined value sorts before `undefined`, and plain objects tie. -/
def compareAsc : SortVal → SortVal → Ordering
  | .str a, .str b => compare a b
  | .dat (some a), .dat (some b) => compare a b
  | .dat (some _), .dat none => .lt
  | .dat none, .dat (some _) => .gt
  | .dat none, .dat none => .eq
  | _, _ => .eq

/-- Apply the lodash `orders` parameter: `'desc'` flips the comparison,
anything else is ascending. -/
def applyDir (desc : Bool) (o : Ordering) : Ordering :=
  if desc then o.swap else o

/-- Insert `x` before the first element `y` it must not follow; with a
"may come before" test this is the insertion step of a stable sort. -/
def insertStable (le : α → α → Bool) (x : α) : List α → List α
  | [] => [x]
  | y :: ys => if le x y then x :: y :: ys else y :: insertStable le x ys

/-- Stable insertion sort: equal-key elements retain their input order,
like `_.orderBy` (which tie-breaks by original index). -/
def stableSortBy (le : α → α → Bool) : List α → List α
  | [] => []
  | x :: xs => insertStable le x (stableSortBy le xs)

/-- `_.orderBy(l, key, direction)` with a single iteratee: stable sort
by `compareAsc` on keys, direction-adjusted. -/
def orderByKey (key : α → SortVal) (desc : Bool) (l : List α) : List α :=
  stableSortBy (fun x y => applyDir desc (compareAsc (key x) (key y)) != Ordering.gt) l

/-- `_.partition`: a single pass splitting a list into the elements
satisfying the predicate and the rest, each in input order. -/
def jsPartition (p : α → Bool) : List α → List α × List α
  | [] => ([], [])
  | x :: xs =>
    let r := jsPartition p xs
    if p x then (x :: r.1, r.2) else (r.1, x :: r.2)

/-- The regex test `title.match(/^[\d-]+$/)` of line 116: non-empty and
made of digits and hyphens only. -/
def numericTitle (s : String) : Bool :=
  !s.isEmpty && s.data.all (fun c => isDigit09 c || c == '-')

/-- `itemCount` (lines 161-165). -/
def itemCount (count : Nat) (type : String) : String :=
  if count = 0 then ""
  else toString count ++ " " ++ type ++ (if count > 1 then "s" else "")

/-- `calculateSummary` (lines 103-110) as a function of the stats:
`_.compact` drops the empty fragments, `join(', ')` concatenates. -/
def calculateSummary (stats : Stats) : String :=
  String.intercalate ", "
    (([itemCount stats.albums "album",
       itemCount stats.photos "photo",
       itemCount stats.videos "video"]).filter (fun s => s != ""))

/-- The input side of an album node: the fields populated by the
constructor (lines 34-45) that `finalize` consumes.  The auto-increment
`id` is omitted (it is used for identity only) and the caller supplies
the title, as `new Album({title, files, albums})` does. -/
inductive Album where
  | mk (title : String) (basename : String) (files : List MediaFile) (albums : List Album)

/-- A node after `finalize`: every field the recursion populates. -/
inductive FAlbum where
  | mk (title basename path url : String) (depth : Nat) (home : Bool)
       (files : List MediaFile) (albums : List FAlbum)
       (stats : Stats) (summary : String) (previews : List Preview)

def Album.title : Album → String
  | .mk t _ _ _ => t

def Album.basename : Album → String
  | .mk _ b _ _ => b

def Album.files : Album → List MediaFile
  | .mk _ _ f _ => f

def Album.albums : Album → List Album
  | .mk _ _ _ al => al

/-- The `Album` constructor (lines 34-45): `basename = sanitise(title)`,
`depth`/`home`/`stats`/`previews` left for `finalize`. -/
def Album.make (title : String) (files : List MediaFile) (albums : List Album) : Album :=
  Album.mk title (sanitise title) files albums

def FAlbum.title : FAlbum → String
  | .mk t _ _ _ _ _ _ _ _ _ _ => t

def FAlbum.basename : FAlbum → String
  | .mk _ b _ _ _ _ _ _ _ _ _ => b

def FAlbum.path : FAlbum → String
  | .mk _ _ p _ _ _ _ _ _ _ _ => p

def FAlbum.url : FAlbum → String
  | .mk _ _ _ u _ _ _ _ _ _ _ => u

def FAlbum.depth : FAlbum → Nat
  | .mk _ _ _ _ d _ _ _ _ _ _ => d

def FAlbum.home : FAlbum → Bool
  | .mk _ _ _ _ _ h _ _ _ _ _ => h

def FAlbum.files : FAlbum → List MediaFile
  | .mk _ _ _ _ _ _ f _ _ _ _ => f

def FAlbum.albums : FAlbum → List FAlbum
  | .mk _ _ _ _ _ _ _ al _ _ _ => al

def FAlbum.stats : FAlbum → Stats
  | .mk _ _ _ _ _ _ _ _ st _ _ => st

def FAlbum.summary : FAlbum → String
  | .mk _ _ _ _ _ _ _ _ _ s _ => s

def FAlbum.previews : FAlbum → List Preview
  | .mk _ _ _ _ _ _ _ _ _ _ pv => pv

/-- The iteratee table `SORT_ALBUMS_BY` (lines 17-21) looked up at the
configured key; an unrecognized or absent key falls through to lodash's
identity iteratee over album objects. -/
def albumSortVal (key : Option String) (a : FAlbum) : SortVal :=
  match key with
  | some "title" => .str a.title
  | some "start-date" => .dat a.stats.fromDate
  | some "end-date" => .dat a.stats.toDate
  | _ => .obj

/-- The iteratee table `SORT_MEDIA_BY` (lines 23-26). -/
def mediaSortVal (key : Option String) (f : MediaFile) : SortVal :=
  match key with
  | some "filename" => .str f.filename
  | some "date" => .dat f.date
  | _ => .obj

/-- `calculateStats` (lines 81-101) as a function of the (already
finalized) child albums and the node's own files. -/
def calculateStats (albums : List FAlbum) (files : List MediaFile) : Stats :=
  let nestedPhotos := albums.map (fun a => a.stats.photos)
  let nestedVideos := albums.map (fun a => a.stats.videos)
  let nestedFromDates := albums.map (fun a => a.stats.fromDate)
  let nestedToDates := albums.map (fun a => a.stats.toDate)
  let currentPhotos := (files.filter (fun f => f.type == "image")).length
  let currentVideos := (files.filter (fun f => f.type == "video")).length
  let currentFromDate := files.map (fun f => f.date)
  let currentToDate := files.map (fun f => f.date)
  let photos := (compactNat (nestedPhotos ++ [currentPhotos])).sum
  let videos := (compactNat (nestedVideos ++ [currentVideos])).sum
  { albums := albums.length
    photos := photos
    videos := videos
    fromDate := lodashMin (compactDates (nestedFromDates ++ currentFromDate))
    toDate := lodashMax (compactDates (nestedToDates ++ currentToDate))
    total := photos + videos }

/-- The album half of `sort` (lines 114-118): order by the configured
key, then, when `sortAlmbumsNumbersFirst`, partition the numeric-titled
albums to the front. -/
def sortAlbums (opts : Options) (albums : List FAlbum) : List FAlbum :=
  let sorted := orderByKey (albumSortVal opts.sortAlbumsBy)
      (opts.sortAlbumsDirection == some "desc") albums
  if opts.sortAlmbumsNumbersFirst then
    let parts := jsPartition (fun a => numericTitle a.title) sorted
    parts.1 ++ parts.2
  else sorted

/-- The media half of `sort` (line 113). -/
def sortFiles (opts : Options) (files : List MediaFile) : List MediaFile :=
  orderByKey (mediaSortVal opts.sortMediaBy) (opts.sortMediaDirection == some "desc") files

/-- `pickPreviews` (lines 121-134) as a function of the node's (sorted)
files and (sorted, finalized) child albums: flatten child previews,
drop inherited `PREVIEW_MISSING` sentinels, put own files first, take
`PREVIEW_COUNT`, pad the tail with the sentinel. -/
def pickPreviews (files : List MediaFile) (albums : List FAlbum) : List Preview :=
  let nestedPicks := ((albums.map (fun a => a.previews)).flatten).filter
    (fun p => p != Preview.missing)
  let potentialPicks := files.map Preview.real ++ nestedPicks
  let picked := potentialPicks.take PREVIEW_COUNT
  picked ++ List.replicate (PREVIEW_COUNT - picked.length) Preview.missing

/-- The part of the parent node that a child's `finalize` reads: the
parent's depth and already-rewritten basename (lines 61-66). -/
structure ParentCtx where
  depth : Nat
  basename : String
deriving DecidableEq, Repr

mutual

/-- `Album.prototype.finalize` (lines 47-79): title normalization,
path/URL/depth assignment, recursion into children, then stats,
summary, sorting and previews, in source order. -/
def Album.finalize (opts : Options) (parent : Option ParentCtx) : Album → FAlbum
  | .mk title basename files albums =>
    let albumsOutputFolder := jsOrString opts.albumsOutputFolder "."
    let newTitle := if opts.titleizeAlbumNames then titleize title else title
    let newBasename :=
      match parent with
      | none => basename
      | some p => if p.depth > 0 then p.basename ++ "-" ++ basename else basename
    let newDepth : Nat :=
      match parent with
      | none => 0
      | some p => p.depth + 1
    let newPath :=
      match parent with
      | none => jsOrString opts.index "index.html"
      | some _ => pathJoin albumsOutputFolder (newBasename ++ ".html")
    let newUrl :=
      match parent with
      | none => jsOrString opts.index "index.html"
      | some _ => urlResolve albumsOutputFolder (newBasename ++ ".html")
    let children := Album.finalizeList opts ⟨newDepth, newBasename⟩ albums
    let home := newDepth == 0
    let stats := calculateStats children files
    let summary := calculateSummary stats
    let sortedFiles := sortFiles opts files
    let sortedAlbums := sortAlbums opts children
    let previews := pickPreviews sortedFiles sortedAlbums
    .mk newTitle newBasename newPath newUrl newDepth home sortedFiles sortedAlbums
      stats summary previews

/-- The loop of lines 69-71: finalize each child with this node as the
parent, in array order. -/
def Album.finalizeList (opts : Options) (ctx : ParentCtx) : List Album → List FAlbum
  | [] => []
  | a :: rest => Album.finalize opts (some ctx) a :: Album.finalizeList opts ctx rest

end

mutual

/-- All nodes of a finalized tree: the node itself and, recursively,
every node of every child. -/
def FAlbum.nodes : FAlbum → List FAlbum
  | .mk t b p u d h f al st s pv =>
    FAlbum.mk t b p u d h f al st s pv :: FAlbum.nodesList al

def FAlbum.nodesList : List FAlbum → List FAlbum
  | [] => []
  | a :: rest => FAlbum.nodes a ++ FAlbum.nodesList rest

end

mutual

/-- Total number of media files in an input tree (the node's own files
plus, recursively, all descendants'). -/
def Album.totalFiles : Album → Nat
  | .mk _ _ files albums => files.length + Album.totalFilesList albums

def Album.totalFilesList : List Album → Nat
  | [] => 0
  | a :: rest => Album.totalFiles a + Album.totalFilesList rest

end

/-- Basenames allowed by the sanitiser: ASCII letters, digits, hyphens
and underscores only. -/
def basenameOk (s : String) : Bool := s.data.all isKeptChar

mutual

/-- Every node of an input tree has a basename in the sanitised
character class, as holds for trees built by the constructor. -/
def Album.builtOk : Album → Bool
  | .mk _ basename _ albums => basenameOk basename && Album.builtOkList albums

def Album.builtOkList : List Album → Bool
  | [] => true
  | a :: rest => Album.builtOk a && Album.builtOkList rest

end

/-! ## Infrastructure lemmas -/

/-- The depth `finalize` assigns (lines 59, 66). -/
def finalDepth : Option ParentCtx → Nat
  | none => 0
  | some p => p.depth + 1

/-- The basename `finalize` assigns (lines 61-63). -/
def finalBasename (parent : Option ParentCtx) (b : String) : String :=
  match parent with
  | none => b
  | some p => if p.depth > 0 then p.basename ++ "-" ++ b else b

/-- The path `finalize` assigns (lines 57, 64). -/
def finalPath (opts : Options) (parent : Option ParentCtx) (nb : String) : String :=
  match parent with
  | none => jsOrString opts.index "index.html"
  | some _ => pathJoin (jsOrString opts.albumsOutputFolder ".") (nb ++ ".html")

/-- The url `finalize` assigns (lines 58, 65). -/
def finalUrl (opts : Options) (parent : Option ParentCtx) (nb : String) : String :=
  match parent with
  | none => jsOrString opts.index "index.html"
  | some _ => urlResolve (jsOrString opts.albumsOutputFolder ".") (nb ++ ".html")

theorem finalize_mk (opts : Options) (parent : Option ParentCtx)
    (t b : String) (f : List MediaFile) (al : List Album) :
    Album.finalize opts parent (.mk t b f al) =
      .mk (if opts.titleizeAlbumNames then titleize t else t)
        (finalBasename parent b)
        (finalPath opts parent (finalBasename parent b))
        (finalUrl opts parent (finalBasename parent b))
        (finalDepth parent)
        (finalDepth parent == 0)
        (sortFiles opts f)
        (sortAlbums opts (Album.finalizeList opts ⟨finalDepth parent, finalBasename parent b⟩ al))
        (calculateStats (Album.finalizeList opts ⟨finalDepth parent, finalBasename parent b⟩ al) f)
        (calculateSummary
          (calculateStats (Album.finalizeList opts ⟨finalDepth parent, finalBasename parent b⟩ al) f))
        (pickPreviews (sortFiles opts f)
          (sortAlbums opts (Album.finalizeList opts ⟨finalDepth parent, finalBasename parent b⟩ al))) := by
  cases parent <;> rfl

theorem finalizeList_eq_map (opts : Options) (ctx : ParentCtx) :
    ∀ l : List Album, Album.finalizeList opts ctx l = l.map (Album.finalize opts (some ctx))
  | [] => rfl
  | a :: rest => by
    simp only [Album.finalizeList, List.map_cons, finalizeList_eq_map opts ctx rest]

theorem insertStable_perm (le : α → α → Bool) (x : α) :
    ∀ l : List α, List.Perm (insertStable le x l) (x :: l)
  | [] => List.Perm.refl _
  | y :: ys => by
    simp only [insertStable]
    split
    · exact List.Perm.refl _
    · exact ((insertStable_perm le x ys).cons y).trans (List.Perm.swap x y ys)

theorem stableSortBy_perm (le : α → α → Bool) :
    ∀ l : List α, List.Perm (stableSortBy le l) l
  | [] => List.Perm.refl _
  | x :: xs => by
    simp only [stableSortBy]
    exact (insertStable_perm le x (stableSortBy le xs)).trans ((stableSortBy_perm le xs).cons x)

theorem orderByKey_perm (key : α → SortVal) (desc : Bool) (l : List α) :
    List.Perm (orderByKey key desc l) l :=
  stableSortBy_perm _ l

theorem jsPartition_eq (p : α → Bool) :
    ∀ l : List α, jsPartition p l = (l.filter p, l.filter (fun x => !p x))
  | [] => rfl
  | x :: xs => by
    simp only [jsPartition, jsPartition_eq p xs, List.filter_cons]
    rcases h : p x with _ | _ <;> simp [h]

theorem jsPartition_append_perm (p : α → Bool) :
    ∀ l : List α, List.Perm ((jsPartition p l).1 ++ (jsPartition p l).2) l
  | [] => List.Perm.refl _
  | x :: xs => by
    simp only [jsPartition]
    split
    · simpa using (jsPartition_append_perm p xs).cons x
    · simpa using List.perm_middle.trans ((jsPartition_append_perm p xs).cons x)

theorem sortAlbums_perm (opts : Options) (l : List FAlbum) :
    List.Perm (sortAlbums opts l) l := by
  unfold sortAlbums
  split
  · exact (jsPartition_append_perm _ _).trans (orderByKey_perm _ _ l)
  · exact orderByKey_perm _ _ l

theorem sortFiles_perm (opts : Options) (l : List MediaFile) :
    List.Perm (sortFiles opts l) l :=
  orderByKey_perm _ _ l

theorem nodes_def (F : FAlbum) : F.nodes = F :: FAlbum.nodesList F.albums := by
  cases F; rfl

theorem self_mem_nodes (F : FAlbum) : F ∈ F.nodes := by
  rw [nodes_def]; exact List.mem_cons_self F _

theorem mem_nodesList {n : FAlbum} :
    ∀ {l : List FAlbum}, n ∈ FAlbum.nodesList l ↔ ∃ c ∈ l, n ∈ c.nodes
  | [] => by simp [FAlbum.nodesList]
  | a :: rest => by
    simp only [FAlbum.nodesList, List.mem_append, mem_nodesList, List.mem_cons]
    constructor
    · rintro (h | ⟨c, hc, hn⟩)
      · exact ⟨a, Or.inl rfl, h⟩
      · exact ⟨c, Or.inr hc, hn⟩
    · rintro ⟨c, hc | hc, hn⟩
      · exact Or.inl (hc ▸ hn)
      · exact Or.inr ⟨c, hc, hn⟩

theorem mem_nodes {n F : FAlbum} :
    n ∈ F.nodes ↔ n = F ∨ ∃ c ∈ F.albums, n ∈ c.nodes := by
  rw [nodes_def]
  simp only [List.mem_cons, mem_nodesList]

theorem Album.inductionOn {P : Album → Prop}
    (step : ∀ t b f al, (∀ c, c ∈ al → P c) → P (Album.mk t b f al)) :
    ∀ a, P a
  | .mk t b f al => step t b f al (fun c hc => Album.inductionOn step c)
termination_by a => sizeOf a
decreasing_by
  have h := List.sizeOf_lt_of_mem hc
  simp only [Album.mk.sizeOf_spec]
  omega

theorem nodes_finalize {opts : Options} :
    ∀ a : Album, ∀ p : Option ParentCtx, ∀ n : FAlbum,
      n ∈ (Album.finalize opts p a).nodes → ∃ p' a', n = Album.finalize opts p' a' := by
  intro a
  induction a using Album.inductionOn with
  | step t b f al ih =>
    intro p n hn
    rw [finalize_mk] at hn
    rcases mem_nodes.mp hn with h | ⟨c, hc, hnc⟩
    · exact ⟨p, .mk t b f al, by rw [finalize_mk]; exact h⟩
    · have hc' : c ∈ Album.finalizeList opts
          ⟨finalDepth p, finalBasename p b⟩ al := by
        have := (sortAlbums_perm opts _).mem_iff.mp (by simpa using hc)
        exact this
      rw [finalizeList_eq_map] at hc'
      rcases List.mem_map.mp hc' with ⟨c0, hc0, rfl⟩
      exact ih c0 hc0 _ n hnc

theorem FAlbum.title_mk (t b p u : String) (d : Nat) (h : Bool) (f : List MediaFile)
    (al : List FAlbum) (st : Stats) (s : String) (pv : List Preview) :
    (FAlbum.mk t b p u d h f al st s pv).title = t := rfl

theorem FAlbum.basename_mk (t b p u : String) (d : Nat) (h : Bool) (f : List MediaFile)
    (al : List FAlbum) (st : Stats) (s : String) (pv : List Preview) :
    (FAlbum.mk t b p u d h f al st s pv).basename = b := rfl

theorem FAlbum.path_mk (t b p u : String) (d : Nat) (h : Bool) (f : List MediaFile)
    (al : List FAlbum) (st : Stats) (s : String) (pv : List Preview) :
    (FAlbum.mk t b p u d h f al st s pv).path = p := rfl

theorem FAlbum.url_mk (t b p u : String) (d : Nat) (h : Bool) (f : List MediaFile)
    (al : List FAlbum) (st : Stats) (s : String) (pv : List Preview) :
    (FAlbum.mk t b p u d h f al st s pv).url = u := rfl

theorem FAlbum.depth_mk (t b p u : String) (d : Nat) (h : Bool) (f : List MediaFile)
    (al : List FAlbum) (st : Stats) (s : String) (pv : List Preview) :
    (FAlbum.mk t b p u d h f al st s pv).depth = d := rfl

theorem FAlbum.home_mk (t b p u : String) (d : Nat) (h : Bool) (f : List MediaFile)
    (al : List FAlbum) (st : Stats) (s : String) (pv : List Preview) :
    (FAlbum.mk t b p u d h f al st s pv).home = h := rfl

theorem FAlbum.files_mk (t b p u : String) (d : Nat) (h : Bool) (f : List MediaFile)
    (al : List FAlbum) (st : Stats) (s : String) (pv : List Preview) :
    (FAlbum.mk t b p u d h f al st s pv).files = f := rfl

theorem FAlbum.albums_mk (t b p u : String) (d : Nat) (h : Bool) (f : List MediaFile)
    (al : List FAlbum) (st : Stats) (s : String) (pv : List Preview) :
    (FAlbum.mk t b p u d h f al st s pv).albums = al := rfl

theorem FAlbum.stats_mk (t b p u : String) (d : Nat) (h : Bool) (f : List MediaFile)
    (al : List FAlbum) (st : Stats) (s : String) (pv : List Preview) :
    (FAlbum.mk t b p u d h f al st s pv).stats = st := rfl

theorem FAlbum.summary_mk (t b p u : String) (d : Nat) (h : Bool) (f : List MediaFile)
    (al : List FAlbum) (st : Stats) (s : String) (pv : List Preview) :
    (FAlbum.mk t b p u d h f al st s pv).summary = s := rfl

theorem FAlbum.previews_mk (t b p u : String) (d : Nat) (h : Bool) (f : List MediaFile)
    (al : List FAlbum) (st : Stats) (s : String) (pv : List Preview) :
    (FAlbum.mk t b p u d h f al st s pv).previews = pv := rfl

theorem compactNat_sum : ∀ l : List Nat, (compactNat l).sum = l.sum
  | [] => rfl
  | x :: xs => by
    simp only [compactNat, List.filter_cons]
    rcases Nat.eq_zero_or_pos x with hx | hx
    · subst hx
      simpa using compactNat_sum xs
    · have : (x != 0) = true := by simpa using Nat.pos_iff_ne_zero.mp hx
      rw [this]
      simpa [List.sum_cons] using congrArg (x + ·) (compactNat_sum xs)

theorem calculateStats_photos (albums : List FAlbum) (files : List MediaFile) :
    (calculateStats albums files).photos =
      (albums.map (fun a => a.stats.photos)).sum
        + (files.filter (fun f => f.type == "image")).length := by
  simp [calculateStats, compactNat_sum]

theorem calculateStats_videos (albums : List FAlbum) (files : List MediaFile) :
    (calculateStats albums files).videos =
      (albums.map (fun a => a.stats.videos)).sum
        + (files.filter (fun f => f.type == "video")).length := by
  simp [calculateStats, compactNat_sum]

theorem calculateStats_total (albums : List FAlbum) (files : List MediaFile) :
    (calculateStats albums files).total =
      (calculateStats albums files).photos + (calculateStats albums files).videos := rfl

/-- C1. Stats additivity: in a finalized tree, every node's
`stats.photos` is the sum of `stats.photos` over its direct child
albums plus the number of its own files of type `image`; `stats.videos`
is the symmetric sum over type `video`; and `stats.total` is
`stats.photos + stats.videos`. -/
theorem stats_additivity (opts : Options) (parent : Option ParentCtx) (a : Album) :
    ∀ n ∈ (Album.finalize opts parent a).nodes,
      n.stats.photos = (n.albums.map (fun c => c.stats.photos)).sum
          + (n.files.filter (fun f => f.type == "image")).length ∧
      n.stats.videos = (n.albums.map (fun c => c.stats.videos)).sum
          + (n.files.filter (fun f => f.type == "video")).length ∧
      n.stats.total = n.stats.photos + n.stats.videos := by
  intro n hn
  obtain ⟨p', a', rfl⟩ := nodes_finalize a parent n hn
  obtain ⟨t, b, f, al⟩ := a'
  rw [finalize_mk]
  simp only [FAlbum.stats_mk, FAlbum.albums_mk, FAlbum.files_mk]
  set children := Album.finalizeList opts ⟨finalDepth p', finalBasename p' b⟩ al with hch
  have hsa : List.Perm (sortAlbums opts children) children := sortAlbums_perm opts children
  have hsf : List.Perm (sortFiles opts f) f := sortFiles_perm opts f
  refine ⟨?_, ?_, calculateStats_total children f⟩
  · rw [calculateStats_photos, (hsa.map (fun c => c.stats.photos)).sum_eq,
      ((hsf.filter (fun x => x.type == "image")).length_eq)]
  · rw [calculateStats_videos, (hsa.map (fun c => c.stats.videos)).sum_eq,
      ((hsf.filter (fun x => x.type == "video")).length_eq)]

/-- C9. Graceful degradation: finalizing an album with no files and no
child albums (with any options and any parent) yields zero counts and
undefined date bounds, rather than failing. -/
theorem finalize_empty_album_stats (opts : Options) (parent : Option ParentCtx) (t : String) :
    (Album.finalize opts parent (Album.make t [] [])).stats =
      { albums := 0, photos := 0, videos := 0, fromDate := none, toDate := none, total := 0 } :=
  rfl

/-- Follows the spec's words (C6): the fragment `"<n> album(s)"` /
`"<n> photo(s)"` / `"<n> video(s)"`, with a trailing `s` exactly when
the count exceeds 1. -/
def specFragment (n : Nat) (noun : String) : String :=
  toString n ++ " " ++ noun ++ (if 1 < n then "s" else "")

/-- Follows the spec's words (C6): the fragments in album/photo/video
order, each omitted entirely when its count is 0. -/
def specFragments (s : Stats) : List String :=
  (if s.albums = 0 then [] else [specFragment s.albums "album"]) ++
  (if s.photos = 0 then [] else [specFragment s.photos "photo"]) ++
  (if s.videos = 0 then [] else [specFragment s.videos "video"])

/-- Follows the spec's words (C6): the comma-plus-space join of the
non-omitted fragments. -/
def specSummary (s : Stats) : String :=
  String.intercalate ", " (specFragments s)

theorem itemCount_ne_empty (n : Nat) (t : String) (h : n ≠ 0) : itemCount n t ≠ "" := by
  simp only [itemCount, if_neg h]
  intro he
  have hlen := congrArg String.length he
  rw [String.length_append, String.length_append, String.length_append] at hlen
  have h1 : (" " : String).length = 1 := rfl
  have h0 : ("" : String).length = 0 := rfl
  rw [h1, h0] at hlen
  omega

theorem filter_itemCount_cons (n : Nat) (t : String) (rest : List String) :
    ((itemCount n t :: rest).filter (fun s => s != "")) =
      (if n = 0 then [] else [specFragment n t]) ++ rest.filter (fun s => s != "") := by
  rcases Nat.eq_zero_or_pos n with h | h
  · subst h
    simp [List.filter_cons, itemCount]
  · have hne := Nat.pos_iff_ne_zero.mp h
    rw [if_neg hne, List.filter_cons]
    have hb : (itemCount n t != "") = true := by
      simpa using itemCount_ne_empty n t hne
    rw [if_pos hb]
    have : itemCount n t = specFragment n t := by
      simp [itemCount, specFragment, hne]
    rw [this]
    rfl

theorem calculateSummary_eq_spec (s : Stats) : calculateSummary s = specSummary s := by
  obtain ⟨na, np, nv, fd, td, tot⟩ := s
  simp only [calculateSummary, specSummary, specFragments]
  rw [filter_itemCount_cons, filter_itemCount_cons, filter_itemCount_cons]
  simp

/-- Sample options record with every field absent or false. -/
def exOptions : Options := ⟨none, none, false, none, none, none, none, false⟩

/-- A sample image file. -/
def exImage (name : String) : MediaFile := ⟨"image", name, none, "thumb.jpg"⟩

/-- A sample album holding three photos, no videos, no child albums. -/
def exPhotosOnly : Album :=
  Album.make "Holiday" [exImage "a", exImage "b", exImage "c"] []

/-- C6. Summary formatting: in a finalized tree, every node's summary
is the comma-plus-space join of the fragments `"<n> album(s)"`,
`"<n> photo(s)"`, `"<n> video(s)"` taken from its stats in that order,
a fragment being omitted when its count is 0 and pluralized exactly
when its count exceeds 1; in particular an album with 0 child albums,
0 videos and 3 photos gets summary `"3 photos"`. -/
theorem summary_formatting :
    (∀ opts : Options, ∀ parent : Option ParentCtx, ∀ a : Album,
      ∀ n ∈ (Album.finalize opts parent a).nodes, n.summary = specSummary n.stats) ∧
    (Album.finalize exOptions none exPhotosOnly).summary = "3 photos" := by
  constructor
  · intro opts parent a n hn
    obtain ⟨p', a', rfl⟩ := nodes_finalize a parent n hn
    obtain ⟨t, b, f, al⟩ := a'
    rw [finalize_mk]
    simp only [FAlbum.summary_mk, FAlbum.stats_mk]
    exact calculateSummary_eq_spec _
  · decide

/-- Witness for C6 at a concrete tree: the root of the finalized
three-photo album is one of its nodes, and its summary matches the
spec-side formatter. -/
theorem summary_formatting_witness :
    (Album.finalize exOptions none exPhotosOnly)
        ∈ (Album.finalize exOptions none exPhotosOnly).nodes ∧
    (Album.finalize exOptions none exPhotosOnly).summary =
      specSummary (Album.finalize exOptions none exPhotosOnly).stats :=
  ⟨self_mem_nodes _,
    summary_formatting.1 exOptions none exPhotosOnly _ (self_mem_nodes _)⟩

/-- Witness for C1 at a concrete tree: the finalized three-photo root
is one of its own nodes and satisfies the additivity equations. -/
theorem stats_additivity_witness :
    (Album.finalize exOptions none exPhotosOnly)
        ∈ (Album.finalize exOptions none exPhotosOnly).nodes ∧
    (Album.finalize exOptions none exPhotosOnly).stats.photos =
        ((Album.finalize exOptions none exPhotosOnly).albums.map
          (fun c => c.stats.photos)).sum
        + ((Album.finalize exOptions none exPhotosOnly).files.filter
          (fun f => f.type == "image")).length ∧
    (Album.finalize exOptions none exPhotosOnly).stats.videos =
        ((Album.finalize exOptions none exPhotosOnly).albums.map
          (fun c => c.stats.videos)).sum
        + ((Album.finalize exOptions none exPhotosOnly).files.filter
          (fun f => f.type == "video")).length ∧
    (Album.finalize exOptions none exPhotosOnly).stats.total =
        (Album.finalize exOptions none exPhotosOnly).stats.photos
        + (Album.finalize exOptions none exPhotosOnly).stats.videos :=
  ⟨self_mem_nodes _,
    stats_additivity exOptions none exPhotosOnly _ (self_mem_nodes _)⟩

theorem pickPreviews_length (files : List MediaFile) (albums : List FAlbum) :
    (pickPreviews files albums).length = PREVIEW_COUNT := by
  simp only [pickPreviews, List.length_append, List.length_replicate]
  have := List.length_take_le PREVIEW_COUNT
    (files.map Preview.real ++
      ((albums.map (fun a => a.previews)).flatten).filter (fun p => p != Preview.missing))
  omega

theorem totalFilesList_eq_zero :
    ∀ {al : List Album}, Album.totalFilesList al = 0 → ∀ c ∈ al, Album.totalFiles c = 0
  | [], _, c, hc => absurd hc (List.not_mem_nil c)
  | a :: rest, h, c, hc => by
    have h' : Album.totalFiles a = 0 ∧ Album.totalFilesList rest = 0 := by
      simp only [Album.totalFilesList] at h
      omega
    rcases List.mem_cons.mp hc with rfl | hc'
    · exact h'.1
    · exact totalFilesList_eq_zero h'.2 c hc'

theorem previews_all_missing {opts : Options} :
    ∀ a : Album, Album.totalFiles a = 0 → ∀ p : Option ParentCtx,
      ∀ n ∈ (Album.finalize opts p a).nodes,
        n.previews = List.replicate PREVIEW_COUNT Preview.missing := by
  intro a
  induction a using Album.inductionOn with
  | step t b f al ih =>
    intro htf p n hn
    have hf : f = [] := by
      simp only [Album.totalFiles] at htf
      exact List.length_eq_zero.mp (by omega)
    have hal : ∀ c ∈ al, Album.totalFiles c = 0 := by
      apply totalFilesList_eq_zero
      simp only [Album.totalFiles] at htf
      omega
    subst hf
    rw [finalize_mk] at hn
    set children := Album.finalizeList opts ⟨finalDepth p, finalBasename p b⟩ al with hch
    have hchildprev : ∀ c' ∈ sortAlbums opts children,
        c'.previews = List.replicate PREVIEW_COUNT Preview.missing := by
      intro c' hc'
      have hmem : c' ∈ children := (sortAlbums_perm opts children).mem_iff.mp hc'
      rw [hch, finalizeList_eq_map] at hmem
      rcases List.mem_map.mp hmem with ⟨c0, hc0, rfl⟩
      exact ih c0 hc0 (hal c0 hc0) _ _ (self_mem_nodes _)
    rcases mem_nodes.mp hn with rfl | ⟨c, hc, hnc⟩
    · rw [FAlbum.previews_mk]
      have hnested : (((sortAlbums opts children).map (fun a => a.previews)).flatten).filter
          (fun p => p != Preview.missing) = [] := by
        rw [List.filter_eq_nil_iff]
        intro x hx
        rcases List.mem_flatten.mp hx with ⟨pv, hpv, hxpv⟩
        rcases List.mem_map.mp hpv with ⟨c', hc', rfl⟩
        rw [hchildprev c' hc'] at hxpv
        have := List.eq_of_mem_replicate hxpv
        subst this
        simp
      have hsf : sortFiles opts ([] : List MediaFile) = [] := rfl
      simp only [pickPreviews, hsf, hnested, List.map_nil, List.nil_append,
        List.take_nil, List.length_nil, Nat.sub_zero]
    · have hmem : c ∈ children := by
        have hc2 : c ∈ sortAlbums opts children := by
          simpa only [FAlbum.albums_mk] using hc
        exact (sortAlbums_perm opts children).mem_iff.mp hc2
      rw [hch, finalizeList_eq_map] at hmem
      rcases List.mem_map.mp hmem with ⟨c0, hc0, rfl⟩
      exact ih c0 hc0 (hal c0 hc0) _ n hnc

/-- C2. Preview count invariant: every node of a finalized tree has
exactly `PREVIEW_COUNT` (10) previews, whatever the subtree size; and
when the input tree holds no files at all, every node's previews are
ten copies of the placeholder. -/
theorem preview_count_invariant (opts : Options) (parent : Option ParentCtx) (a : Album) :
    (∀ n ∈ (Album.finalize opts parent a).nodes, n.previews.length = PREVIEW_COUNT) ∧
    (Album.totalFiles a = 0 →
      ∀ n ∈ (Album.finalize opts parent a).nodes,
        n.previews = List.replicate PREVIEW_COUNT Preview.missing) := by
  constructor
  · intro n hn
    obtain ⟨p', a', rfl⟩ := nodes_finalize a parent n hn
    obtain ⟨t, b, f, al⟩ := a'
    rw [finalize_mk]
    rw [FAlbum.previews_mk]
    exact pickPreviews_length _ _
  · intro htf n hn
    exact previews_all_missing a htf parent n hn

/-- An input album with no files anywhere: an empty root over an empty
child. -/
def exEmptyTree : Album := Album.make "Empty" [] [Album.make "Hollow" [] []]

/-- Witness for C2 at a concrete empty tree: the root is a node, has
ten previews, and they are all the placeholder. -/
theorem preview_count_invariant_witness :
    (Album.finalize exOptions none exEmptyTree)
        ∈ (Album.finalize exOptions none exEmptyTree).nodes ∧
    Album.totalFiles exEmptyTree = 0 ∧
    (Album.finalize exOptions none exEmptyTree).previews.length = PREVIEW_COUNT ∧
    (Album.finalize exOptions none exEmptyTree).previews =
      List.replicate PREVIEW_COUNT Preview.missing :=
  ⟨self_mem_nodes _, by decide,
    (preview_count_invariant exOptions none exEmptyTree).1 _ (self_mem_nodes _),
    (preview_count_invariant exOptions none exEmptyTree).2 (by decide) _ (self_mem_nodes _)⟩

/-- The pool a node draws its previews from, in terms of its own
finalized fields: its own (sorted) files first, then its children's
previews flattened in (sorted) child order with every inherited
`PREVIEW_MISSING` sentinel removed (lines 122-127). -/
def previewPool (n : FAlbum) : List Preview :=
  n.files.map Preview.real ++
    ((n.albums.map (fun c => c.previews)).flatten).filter (fun p => p != Preview.missing)

/-- C3. Placeholder provenance and position: in a finalized tree, every
node's previews are exactly the first `PREVIEW_COUNT` entries of its
own files followed by its children's previews with every inherited
placeholder filtered out, padded to `PREVIEW_COUNT` with placeholders
appended by the node itself — so no placeholder inherited from a child
appears, every placeholder present fills the node's own shortfall, and
all placeholders sit in a contiguous tail after every real item. -/
theorem placeholder_provenance (opts : Options) (parent : Option ParentCtx) (a : Album) :
    ∀ n ∈ (Album.finalize opts parent a).nodes,
      n.previews = (previewPool n).take PREVIEW_COUNT ++
        List.replicate (PREVIEW_COUNT - ((previewPool n).take PREVIEW_COUNT).length)
          Preview.missing ∧
      ∃ t : List Preview, (∀ x ∈ t, x ≠ Preview.missing) ∧
        n.previews = t ++ List.replicate (PREVIEW_COUNT - t.length) Preview.missing := by
  intro n hn
  obtain ⟨p', a', rfl⟩ := nodes_finalize a parent n hn
  obtain ⟨t, b, f, al⟩ := a'
  rw [finalize_mk]
  simp only [FAlbum.previews_mk, FAlbum.files_mk, FAlbum.albums_mk]
  constructor
  · rfl
  · set sf := sortFiles opts f with hsf
    set sa := sortAlbums opts
      (Album.finalizeList opts ⟨finalDepth p', finalBasename p' b⟩ al) with hsa
    refine ⟨(sf.map Preview.real ++
        ((sa.map (fun a => a.previews)).flatten).filter (fun p => p != Preview.missing)).take
        PREVIEW_COUNT, ?_, rfl⟩
    intro x hx
    have hx' := List.mem_of_mem_take hx
    rcases List.mem_append.mp hx' with hleft | hright
    · rcases List.mem_map.mp hleft with ⟨file, _, rfl⟩
      simp
    · have := (List.mem_filter.mp hright).2
      simpa using this

/-- A root with one photo of its own over two children: an empty one
(whose previews are ten placeholders) and one with two photos — so the
root's preview pool really does filter inherited placeholders out. -/
def exNested : Album :=
  Album.make "Parent" [exImage "p1"]
    [Album.make "Hollow" [] [], Album.make "Child" [exImage "c1", exImage "c2"] []]

/-- The finalized nested example. -/
def exNestedF : FAlbum := Album.finalize exOptions none exNested

/-- Witness for C3 on the nested example: the root is a node of its
finalized tree, its previews equal its filtered pool (one own photo,
the two child photos, no inherited placeholder) padded to ten, and they
decompose as a placeholder-free block before a placeholder tail. -/
theorem placeholder_provenance_witness :
    exNestedF ∈ exNestedF.nodes ∧
    (exNestedF.previews = (previewPool exNestedF).take PREVIEW_COUNT ++
        List.replicate (PREVIEW_COUNT - ((previewPool exNestedF).take PREVIEW_COUNT).length)
          Preview.missing ∧
      ∃ t : List Preview, (∀ x ∈ t, x ≠ Preview.missing) ∧
        exNestedF.previews = t ++ List.replicate (PREVIEW_COUNT - t.length) Preview.missing) :=
  ⟨self_mem_nodes _,
    placeholder_provenance exOptions none exNested _ (self_mem_nodes _)⟩

/-- Options whose `index` is present but the empty string — a falsy
value for the `options.index || 'index.html'` fallback of lines 57-58. -/
def exEmptyIndexOptions : Options := ⟨none, some "", false, none, none, none, none, false⟩

/-- Counterexample to C4 as stated: with `options.index` present and
equal to `""`, the finalized root's `path` is `"index.html"`, not
`options.index`. -/
theorem root_identity_counterexample :
    exEmptyIndexOptions.index = some "" ∧
    (Album.finalize exEmptyIndexOptions none exPhotosOnly).path ≠ "" ∧
    (Album.finalize exEmptyIndexOptions none exPhotosOnly).path = "index.html" := by
  refine ⟨rfl, ?_, ?_⟩ <;> decide

/-- C4 (amended). Root identity: for every options value and every
tree, the finalized root has depth 0, home true, and equal path and
url; path equals `options.index` whenever that is a non-empty string,
and `"index.html"` when `options.index` is absent or empty — all of it
independent of the root's title or basename. -/
theorem root_identity_amended (opts : Options) (a : Album) :
    (Album.finalize opts none a).depth = 0 ∧
    (Album.finalize opts none a).home = true ∧
    (Album.finalize opts none a).path = (Album.finalize opts none a).url ∧
    (∀ s : String, opts.index = some s → s ≠ "" → (Album.finalize opts none a).path = s) ∧
    ((opts.index = none ∨ opts.index = some "") →
      (Album.finalize opts none a).path = "index.html") := by
  obtain ⟨t, b, f, al⟩ := a
  rw [finalize_mk]
  simp only [FAlbum.depth_mk, FAlbum.home_mk, FAlbum.path_mk, FAlbum.url_mk]
  refine ⟨rfl, rfl, rfl, ?_, ?_⟩
  · intro s hs hne
    simp only [finalPath, hs, jsOrString, if_neg hne]
  · rintro (h | h) <;> simp [finalPath, h, jsOrString]

/-- Witness for the amended C4 at concrete inputs. -/
theorem root_identity_amended_witness :
    (Album.finalize exOptions none exPhotosOnly).depth = 0 ∧
    (Album.finalize exOptions none exPhotosOnly).home = true ∧
    (Album.finalize exOptions none exPhotosOnly).path =
      (Album.finalize exOptions none exPhotosOnly).url ∧
    (Album.finalize exOptions none exPhotosOnly).path = "index.html" :=
  ⟨(root_identity_amended exOptions exPhotosOnly).1,
   (root_identity_amended exOptions exPhotosOnly).2.1,
   (root_identity_amended exOptions exPhotosOnly).2.2.1,
   (root_identity_amended exOptions exPhotosOnly).2.2.2.2 (Or.inl rfl)⟩

theorem finalize_child_mem (opts : Options) (p : Option ParentCtx) (t b : String)
    (f : List MediaFile) (pre post : List Album) (c : Album) :
    Album.finalize opts (some ⟨finalDepth p, finalBasename p b⟩) c
      ∈ (Album.finalize opts p (Album.mk t b f (pre ++ c :: post))).albums := by
  rw [finalize_mk, FAlbum.albums_mk]
  apply (sortAlbums_perm opts _).mem_iff.mpr
  rw [finalizeList_eq_map]
  exact List.mem_map_of_mem _ (by simp)

/-- C5. Basename chaining: in any 3-level tree root→A→B, after
finalizing from the root, A occurs among the finalized root's child
albums with basename `sanitise(A.title)` (no prefix: the root's depth
is 0), and B occurs among finalized-A's child albums with basename
`A.basename ++ "-" ++ sanitise(B.title)` (prefix applied: A's depth is
1 > 0). -/
theorem basename_chaining (opts : Options) (tR tA tB : String)
    (fR fA fB : List MediaFile) (cB preA postA preR postR : List Album)
    (B : Album) (hB : B = Album.make tB fB cB)
    (A : Album) (hA : A = Album.make tA fA (preA ++ B :: postA))
    (R : Album) (hR : R = Album.make tR fR (preR ++ A :: postR))
    (R' : FAlbum) (hR' : R' = Album.finalize opts none R)
    (A' : FAlbum) (hA' : A' = Album.finalize opts (some ⟨0, R'.basename⟩) A)
    (B' : FAlbum) (hB' : B' = Album.finalize opts (some ⟨1, A'.basename⟩) B) :
    A' ∈ R'.albums ∧ B' ∈ A'.albums ∧
    R'.basename = sanitise tR ∧
    A'.basename = sanitise tA ∧
    B'.basename = A'.basename ++ "-" ++ sanitise tB := by
  subst hB hA hR hR' hA' hB'
  refine ⟨?_, ?_, rfl, rfl, rfl⟩
  · exact finalize_child_mem opts none tR (sanitise tR) fR preR postR _
  · exact finalize_child_mem opts (some ⟨0, sanitise tR⟩) tA (sanitise tA) fA preA postA _

/-- Concrete 3-level chain for the C5 witness. -/
def exChainB : Album := Album.make "Beach Day" [] []

def exChainA : Album := Album.make "Trips 2024" [] [exChainB]

def exChainR : Album := Album.make "Root" [] [exChainA]

def exChainRF : FAlbum := Album.finalize exOptions none exChainR

def exChainAF : FAlbum := Album.finalize exOptions (some ⟨0, exChainRF.basename⟩) exChainA

def exChainBF : FAlbum := Album.finalize exOptions (some ⟨1, exChainAF.basename⟩) exChainB

/-- Witness for C5 on the concrete chain Root → Trips 2024 → Beach
Day. -/
theorem basename_chaining_witness :
    exChainAF ∈ exChainRF.albums ∧ exChainBF ∈ exChainAF.albums ∧
    exChainRF.basename = sanitise "Root" ∧
    exChainAF.basename = sanitise "Trips 2024" ∧
    exChainBF.basename = exChainAF.basename ++ "-" ++ sanitise "Beach Day" :=
  basename_chaining exOptions "Root" "Trips 2024" "Beach Day" [] [] [] [] [] [] [] []
    exChainB rfl exChainA rfl exChainR rfl exChainRF rfl exChainAF rfl exChainBF rfl

/-- Options for the numbers-first scenario: sort albums by title
ascending, numbers first. -/
def exNumbersFirstOptions : Options := ⟨none, none, false, none, none, some "title", none, true⟩

/-- The albums titled Zebra / 2023 / Apple from the numbers-first
scenario. -/
def exNumbersFirstTree : Album :=
  Album.make "root" []
    [Album.make "Zebra" [] [], Album.make "2023" [] [], Album.make "Apple" [] []]

/-- C7. Numbers-first partition: when `sortAlmbumsNumbersFirst` is
true, the sorted albums are exactly the key-sorted list's entries whose
title fully matches `^[0-9-]+$` followed by the remaining entries, each
group in its key-sorted relative order (a stable partition); and on
albums titled Zebra/2023/Apple with title-ascending sort the resulting
order is 2023, Apple, Zebra. -/
theorem numbers_first_partition :
    (∀ opts : Options, opts.sortAlmbumsNumbersFirst = true → ∀ children : List FAlbum,
      sortAlbums opts children =
        (orderByKey (albumSortVal opts.sortAlbumsBy)
            (opts.sortAlbumsDirection == some "desc") children).filter
          (fun a => numericTitle a.title) ++
        (orderByKey (albumSortVal opts.sortAlbumsBy)
            (opts.sortAlbumsDirection == some "desc") children).filter
          (fun a => !numericTitle a.title)) ∧
    ((Album.finalize exNumbersFirstOptions none exNumbersFirstTree).albums.map FAlbum.title)
      = ["2023", "Apple", "Zebra"] := by
  constructor
  · intro opts h children
    simp [sortAlbums, h, jsPartition_eq]
  · decide

/-- Witness for C7: the hypothesis holds at the scenario options, and
the partition equation is applied to the scenario's finalized
children. -/
theorem numbers_first_partition_witness :
    exNumbersFirstOptions.sortAlmbumsNumbersFirst = true ∧
    sortAlbums exNumbersFirstOptions
        (Album.finalize exNumbersFirstOptions none exNumbersFirstTree).albums =
      (orderByKey (albumSortVal exNumbersFirstOptions.sortAlbumsBy)
          (exNumbersFirstOptions.sortAlbumsDirection == some "desc")
          (Album.finalize exNumbersFirstOptions none exNumbersFirstTree).albums).filter
        (fun a => numericTitle a.title) ++
      (orderByKey (albumSortVal exNumbersFirstOptions.sortAlbumsBy)
          (exNumbersFirstOptions.sortAlbumsDirection == some "desc")
          (Album.finalize exNumbersFirstOptions none exNumbersFirstTree).albums).filter
        (fun a => !numericTitle a.title) :=
  ⟨rfl, numbers_first_partition.1 exNumbersFirstOptions rfl _⟩

theorem lodashMin_eq_none : ∀ {l : List Nat}, lodashMin l = none → l = []
  | [], _ => rfl
  | x :: xs, h => by
    simp only [lodashMin] at h
    rcases hrec : lodashMin xs with _ | m' <;> rw [hrec] at h <;> simp at h

theorem lodashMax_eq_none : ∀ {l : List Nat}, lodashMax l = none → l = []
  | [], _ => rfl
  | x :: xs, h => by
    simp only [lodashMax] at h
    rcases hrec : lodashMax xs with _ | m' <;> rw [hrec] at h <;> simp at h

theorem natMin_eq_min (a b : Nat) : a.min b = min a b := rfl

theorem natMax_eq_max (a b : Nat) : a.max b = max a b := rfl

theorem lodashMin_mem : ∀ {l : List Nat} {m : Nat}, lodashMin l = some m → m ∈ l
  | [], m, h => by simp [lodashMin] at h
  | x :: xs, m, h => by
    simp only [lodashMin] at h
    rcases hrec : lodashMin xs with _ | m' <;> rw [hrec] at h <;>
      simp only [Option.some.injEq] at h
    · subst h
      exact List.mem_cons_self _ _
    · subst h
      rcases Nat.le_total x m' with hle | hle
      · have hx : x.min m' = x := by rw [natMin_eq_min]; omega
        rw [hx]
        exact List.mem_cons_self _ _
      · have hx : x.min m' = m' := by rw [natMin_eq_min]; omega
        rw [hx]
        exact List.mem_cons_of_mem _ (lodashMin_mem hrec)

theorem lodashMin_le : ∀ {l : List Nat} {m : Nat}, lodashMin l = some m →
    ∀ x ∈ l, m ≤ x
  | [], m, h => by simp [lodashMin] at h
  | x :: xs, m, h => by
    simp only [lodashMin] at h
    rcases hrec : lodashMin xs with _ | m' <;> rw [hrec] at h <;>
      simp only [Option.some.injEq] at h <;> subst h
    · intro y hy
      rcases List.mem_cons.mp hy with rfl | hy'
      · exact Nat.le_refl _
      · exact absurd (lodashMin_eq_none hrec ▸ hy') (List.not_mem_nil y)
    · intro y hy
      rcases List.mem_cons.mp hy with rfl | hy'
      · simp only [natMin_eq_min]
        omega
      · have := lodashMin_le hrec y hy'
        simp only [natMin_eq_min]
        omega

theorem lodashMax_ge : ∀ {l : List Nat} {m : Nat}, lodashMax l = some m →
    ∀ x ∈ l, x ≤ m
  | [], m, h => by simp [lodashMax] at h
  | x :: xs, m, h => by
    simp only [lodashMax] at h
    rcases hrec : lodashMax xs with _ | m' <;> rw [hrec] at h <;>
      simp only [Option.some.injEq] at h <;> subst h
    · intro y hy
      rcases List.mem_cons.mp hy with rfl | hy'
      · exact Nat.le_refl _
      · exact absurd (lodashMax_eq_none hrec ▸ hy') (List.not_mem_nil y)
    · intro y hy
      rcases List.mem_cons.mp hy with rfl | hy'
      · simp only [natMax_eq_max]
        omega
      · have := lodashMax_ge hrec y hy'
        simp only [natMax_eq_max]
        omega

theorem mem_compactDates {x : Nat} {l : List (Option Nat)} :
    x ∈ compactDates l ↔ some x ∈ l := by
  simp [compactDates]

/-- Internal date invariant of a finalized node: `fromDate` and
`toDate` are defined together, and ordered when defined. -/
def dateOk (n : FAlbum) : Prop :=
  (n.stats.fromDate = none ↔ n.stats.toDate = none) ∧
  ∀ f t : Nat, n.stats.fromDate = some f → n.stats.toDate = some t → f ≤ t

theorem calculateStats_fromDate (albums : List FAlbum) (files : List MediaFile) :
    (calculateStats albums files).fromDate =
      lodashMin (compactDates (albums.map (fun a => a.stats.fromDate)
        ++ files.map (fun f => f.date))) := rfl

theorem calculateStats_toDate (albums : List FAlbum) (files : List MediaFile) :
    (calculateStats albums files).toDate =
      lodashMax (compactDates (albums.map (fun a => a.stats.toDate)
        ++ files.map (fun f => f.date))) := rfl

theorem compact_dates_nil (g h : FAlbum → Option Nat) (children : List FAlbum)
    (dates : List (Option Nat))
    (hk : ∀ c ∈ children, h c ≠ none → g c ≠ none)
    (hg : compactDates (children.map g ++ dates) = []) :
    compactDates (children.map h ++ dates) = [] := by
  by_contra hne
  obtain ⟨y, hy⟩ := List.exists_mem_of_ne_nil _ hne
  have hy' := mem_compactDates.mp hy
  rcases List.mem_append.mp hy' with hcy | hfy
  · rcases List.mem_map.mp hcy with ⟨c, hc, hcd⟩
    have hgc : g c ≠ none := hk c hc (by rw [hcd]; simp)
    rcases Option.ne_none_iff_exists'.mp hgc with ⟨x, hx⟩
    have hxm : x ∈ compactDates (children.map g ++ dates) :=
      mem_compactDates.mpr (List.mem_append.mpr (Or.inl (List.mem_map.mpr ⟨c, hc, hx⟩)))
    rw [hg] at hxm
    exact absurd hxm (List.not_mem_nil x)
  · have hym : y ∈ compactDates (children.map g ++ dates) :=
      mem_compactDates.mpr (List.mem_append.mpr (Or.inr hfy))
    rw [hg] at hym
    exact absurd hym (List.not_mem_nil y)

theorem dateOk_finalize {opts : Options} :
    ∀ a : Album, ∀ p : Option ParentCtx, dateOk (Album.finalize opts p a) := by
  intro a
  induction a using Album.inductionOn with
  | step t b f al ih =>
    intro p
    rw [finalize_mk]
    set children := Album.finalizeList opts ⟨finalDepth p, finalBasename p b⟩ al with hch
    have hkids : ∀ c ∈ children, dateOk c := by
      intro c hc
      rw [hch, finalizeList_eq_map] at hc
      rcases List.mem_map.mp hc with ⟨c0, hc0, rfl⟩
      exact ih c0 hc0 _
    constructor
    · rw [FAlbum.stats_mk, calculateStats_fromDate, calculateStats_toDate]
      constructor
      · intro hmin
        have hF := lodashMin_eq_none hmin
        have hT := compact_dates_nil (fun a => a.stats.fromDate) (fun a => a.stats.toDate)
          children (f.map (fun x => x.date))
          (fun c hc hne => by
            intro hno
            exact hne ((hkids c hc).1.mp hno)) hF
        rw [hT]
        rfl
      · intro hmax
        have hT := lodashMax_eq_none hmax
        have hF := compact_dates_nil (fun a => a.stats.toDate) (fun a => a.stats.fromDate)
          children (f.map (fun x => x.date))
          (fun c hc hne => by
            intro hno
            exact hne ((hkids c hc).1.mpr hno)) hT
        rw [hF]
        rfl
    · rw [FAlbum.stats_mk, calculateStats_fromDate, calculateStats_toDate]
      intro fm tm hfm htm
      have hmem := lodashMin_mem hfm
      have hge := lodashMax_ge htm
      rcases List.mem_append.mp (mem_compactDates.mp hmem) with hcy | hfy
      · obtain ⟨c, hc, hcd⟩ := List.mem_map.mp hcy
        have hdo := hkids c hc
        have hto : c.stats.toDate ≠ none := by
          intro hn
          have hfn := hdo.1.mpr hn
          rw [hfn] at hcd
          exact Option.noConfusion hcd
        obtain ⟨tc, htc⟩ := Option.ne_none_iff_exists'.mp hto
        have hfmtc : fm ≤ tc := hdo.2 fm tc hcd htc
        have htcTL : tc ∈ compactDates (children.map (fun a => a.stats.toDate)
            ++ f.map (fun x => x.date)) :=
          mem_compactDates.mpr (List.mem_append.mpr (Or.inl (List.mem_map.mpr ⟨c, hc, htc⟩)))
        exact Nat.le_trans hfmtc (hge tc htcTL)
      · have : fm ∈ compactDates (children.map (fun a => a.stats.toDate)
            ++ f.map (fun x => x.date)) :=
          mem_compactDates.mpr (List.mem_append.mpr (Or.inr hfy))
        exact hge fm this

/-- C8. Date range monotonicity: in a finalized tree, every node whose
`stats.fromDate` and `stats.toDate` are both defined has
`fromDate ≤ toDate`. -/
theorem date_range_monotonic (opts : Options) (parent : Option ParentCtx) (a : Album) :
    ∀ n ∈ (Album.finalize opts parent a).nodes,
      ∀ f t : Nat, n.stats.fromDate = some f → n.stats.toDate = some t → f ≤ t := by
  intro n hn f t hf ht
  obtain ⟨p', a', rfl⟩ := nodes_finalize a parent n hn
  exact (dateOk_finalize a' p').2 f t hf ht

/-- An album holding a photo dated 5 and a video dated 3. -/
def exDatedAlbum : Album :=
  Album.make "Dated"
    [⟨"image", "a.jpg", some 5, "ta.jpg"⟩, ⟨"video", "b.mp4", some 3, "tb.jpg"⟩] []

/-- Witness for C8: the dated album's finalized root has
`fromDate = 3 ≤ 5 = toDate`. -/
theorem date_range_monotonic_witness :
    (Album.finalize exOptions none exDatedAlbum)
        ∈ (Album.finalize exOptions none exDatedAlbum).nodes ∧
    (Album.finalize exOptions none exDatedAlbum).stats.fromDate = some 3 ∧
    (Album.finalize exOptions none exDatedAlbum).stats.toDate = some 5 ∧
    (3 : Nat) ≤ 5 :=
  ⟨self_mem_nodes _, by decide, by decide,
    date_range_monotonic exOptions none exDatedAlbum _ (self_mem_nodes _) 3 5
      (by decide) (by decide)⟩

theorem sanitise_basenameOk (s : String) : basenameOk (sanitise s) = true := by
  simp only [basenameOk, sanitise, List.all_eq_true]
  intro c hc
  exact (List.mem_filter.mp hc).2

theorem basenameOk_append {x y : String} (hx : basenameOk x = true)
    (hy : basenameOk y = true) : basenameOk (x ++ y) = true := by
  simp only [basenameOk, String.data_append, List.all_append, Bool.and_eq_true]
  exact ⟨hx, hy⟩

theorem basenameOk_finalBasename {p : Option ParentCtx} {b : String}
    (hb : basenameOk b = true)
    (hp : ∀ ctx, p = some ctx → basenameOk ctx.basename = true) :
    basenameOk (finalBasename p b) = true := by
  cases p with
  | none => exact hb
  | some ctx =>
    simp only [finalBasename]
    split
    · exact basenameOk_append (basenameOk_append (hp ctx rfl) (by decide)) hb
    · exact hb

theorem builtOkList_eq_true :
    ∀ {al : List Album}, Album.builtOkList al = true → ∀ c ∈ al, Album.builtOk c = true
  | [], _, c, hc => absurd hc (List.not_mem_nil c)
  | a :: rest, h, c, hc => by
    have h' : Album.builtOk a = true ∧ Album.builtOkList rest = true := by
      simpa [Album.builtOkList, Bool.and_eq_true] using h
    rcases List.mem_cons.mp hc with rfl | hc'
    · exact h'.1
    · exact builtOkList_eq_true h'.2 c hc'

theorem basenameOk_finalize {opts : Options} :
    ∀ a : Album, Album.builtOk a = true → ∀ p : Option ParentCtx,
      (∀ ctx, p = some ctx → basenameOk ctx.basename = true) →
      ∀ n ∈ (Album.finalize opts p a).nodes, basenameOk n.basename = true := by
  intro a
  induction a using Album.inductionOn with
  | step t b f al ih =>
    intro hok p hp n hn
    have hb : basenameOk b = true ∧ Album.builtOkList al = true := by
      simpa [Album.builtOk, Bool.and_eq_true] using hok
    have hnb : basenameOk (finalBasename p b) = true :=
      basenameOk_finalBasename hb.1 hp
    rw [finalize_mk] at hn
    rcases mem_nodes.mp hn with rfl | ⟨c, hc, hnc⟩
    · rw [FAlbum.basename_mk]
      exact hnb
    · have hmem : c ∈ Album.finalizeList opts ⟨finalDepth p, finalBasename p b⟩ al := by
        have hc2 : c ∈ sortAlbums opts
            (Album.finalizeList opts ⟨finalDepth p, finalBasename p b⟩ al) := by
          simpa only [FAlbum.albums_mk] using hc
        exact (sortAlbums_perm opts _).mem_iff.mp hc2
      rw [finalizeList_eq_map] at hmem
      rcases List.mem_map.mp hmem with ⟨c0, hc0, rfl⟩
      exact ih c0 hc0 (builtOkList_eq_true hb.2 c0 hc0) _
        (fun ctx hctx => by
          cases hctx
          exact hnb) n hnc

/-- C10. Basename character class: every album built by the
constructor has a basename made only of ASCII letters, digits, hyphens
and underscores, and finalizing (from the root) a tree whose basenames
all satisfy this keeps every node's basename inside the class, since
the parent-prefix rewrite only inserts a hyphen between two such
strings. -/
theorem basename_charclass_invariant :
    (∀ title : String, ∀ files : List MediaFile, ∀ als : List Album,
        basenameOk (Album.make title files als).basename = true) ∧
    (∀ opts : Options, ∀ a : Album, Album.builtOk a = true →
        ∀ n ∈ (Album.finalize opts none a).nodes, basenameOk n.basename = true) := by
  constructor
  · intro title files als
    exact sanitise_basenameOk title
  · intro opts a hok n hn
    exact basenameOk_finalize a hok none (fun ctx hctx => Option.noConfusion hctx) n hn

/-- Witness for C10: a constructor basename from a messy title is in
the class, and the finalized three-photo tree's root basename is too. -/
theorem basename_charclass_invariant_witness :
    basenameOk (Album.make "Hello, World!" [] []).basename = true ∧
    Album.builtOk exPhotosOnly = true ∧
    basenameOk (Album.finalize exOptions none exPhotosOnly).basename = true :=
  ⟨basename_charclass_invariant.1 "Hello, World!" [] [],
   by decide,
   basename_charclass_invariant.2 exOptions exPhotosOnly (by decide) _ (self_mem_nodes _)⟩
